import Mathlib

/-!
Verification development for the `tldr` summarization pipeline (src/tldr.py).

Strings are modelled as `List Char`.  The embedding follows the Python source:

* `pySplitlines`  models `str.splitlines()` (splits on the documented Python
  line-boundary characters, treating `"\r\n"` as a single boundary and not
  producing a trailing empty line).
* `pyStrip` / `pyRstrip` model `str.strip()` / `str.rstrip()` over the Python
  whitespace character class.
* `collapseWs` models `re.sub(r"\s+", " ", s)` (each maximal whitespace run
  becomes a single space).
* `remove_disclaimers_and_mentions`, `strip_bullet_points`,
  `enforce_character_limit` and `summarize_text_with_llama` are direct
  translations of the functions with those names in src/tldr.py.
* The regex `^(\*|-|\d+\.)\s?|\d+\)\s?|^```​` used by `strip_bullet_points` is
  modelled by `matchAtStart` (the anchored alternatives, tried at position 0
  in the alternation order of the pattern) together with the scanner
  `bsInner`, which continues `re.sub` scanning: past position 0 only the
  unanchored alternative `\d+\)\s?` can match, and every such match is
  replaced by the empty string.
* The external ollama invocation (`llama_run`) is modelled as an injected
  completion oracle `complete : Nat → List Char` giving the output of the
  n-th completion call; the Python code never inspects the prompt it sends,
  so the oracle abstracts `pass_one_summary`/`pass_two_rewrite` faithfully
  for the post-processing behavior under verification.

Unicode notes: `\d` is modelled as the ASCII digits (the only digits the
claims exercise), `str.lower()` as `Char.toLower`, and the Python whitespace
class by the explicit character list `isPySpace`.
-/

/-- Python whitespace characters (the class matched by `\s` and stripped by
`str.strip()`). -/
def isPySpace (c : Char) : Bool :=
  decide (c = ' ' ∨ c = '\t' ∨ c = '\n' ∨ c = '\x0b' ∨ c = '\x0c' ∨ c = '\r' ∨
    c = '\x1c' ∨ c = '\x1d' ∨ c = '\x1e' ∨ c = '\x1f' ∨ c = '\x85' ∨ c = '\xa0' ∨
    c = '\u1680' ∨ ('\u2000' ≤ c ∧ c ≤ '\u200a') ∨ c = '\u2028' ∨ c = '\u2029' ∨
    c = '\u202f' ∨ c = '\u205f' ∨ c = '\u3000')

/-- Line boundary characters recognized by Python `str.splitlines()`
(other than the two-character boundary `"\r\n"`, handled separately). -/
def isLineBreak (c : Char) : Bool :=
  decide (c = '\n' ∨ c = '\r' ∨ c = '\x0b' ∨ c = '\x0c' ∨ c = '\x1c' ∨ c = '\x1d' ∨
    c = '\x1e' ∨ c = '\x85' ∨ c = '\u2028' ∨ c = '\u2029')

/-- ASCII decimal digit, modelling `\d` on the inputs of interest. -/
def isDigitCh (c : Char) : Bool := c.isDigit

/-- Worker for `pySplitlines`: `afterCR` records that the previous character
was a carriage return (so an immediately following `'\n'` belongs to the same
`"\r\n"` boundary); `cur` is the current line, reversed. -/
def pySplitlinesAux : Bool → List Char → List Char → List (List Char)
  | _, cur, [] => if cur.isEmpty then [] else [cur.reverse]
  | afterCR, cur, c :: rest =>
    if afterCR ∧ c = '\n' then pySplitlinesAux false cur rest
    else if c = '\r' then cur.reverse :: pySplitlinesAux true [] rest
    else if isLineBreak c then cur.reverse :: pySplitlinesAux false [] rest
    else pySplitlinesAux false (c :: cur) rest

/-- Model of Python `str.splitlines()`. -/
def pySplitlines (s : List Char) : List (List Char) := pySplitlinesAux false [] s

/-- Model of Python `str.lstrip()`. -/
def pyLstrip (s : List Char) : List Char := s.dropWhile isPySpace

/-- Model of Python `str.rstrip()`. -/
def pyRstrip (s : List Char) : List Char := (s.reverse.dropWhile isPySpace).reverse

/-- Model of Python `str.strip()`. -/
def pyStrip (s : List Char) : List Char := pyRstrip (pyLstrip s)

/-- Worker for `collapseWs`; the flag records whether the previous input
character was whitespace (so the run it belongs to already emitted its
single space). -/
def collapseWsAux : Bool → List Char → List Char
  | _, [] => []
  | prevWs, c :: rest =>
    if isPySpace c then
      if prevWs then collapseWsAux true rest else ' ' :: collapseWsAux true rest
    else c :: collapseWsAux false rest

/-- Model of `re.sub(r"\s+", " ", s)`: every maximal run of whitespace is
replaced by a single space. -/
def collapseWs (s : List Char) : List Char := collapseWsAux false s

/-- Model of `" ".join(lines)`. -/
def joinWithSpace : List (List Char) → List Char
  | [] => []
  | [l] => l
  | l :: ls => l ++ ' ' :: joinWithSpace ls

/-- Does `s` start with the sequence `kw`? (Helper for Python's substring
containment operator `in`.) -/
def startsWithSeq : List Char → List Char → Bool
  | [], _ => true
  | _ :: _, [] => false
  | a :: as, b :: bs => a = b && startsWithSeq as bs

/-- Model of Python `kw in s`: `kw` occurs as a contiguous subsequence. -/
def containsSeq (kw : List Char) : List Char → Bool
  | [] => kw.isEmpty
  | c :: rest => startsWithSeq kw (c :: rest) || containsSeq kw rest

/-- The disclaimer marker substrings of `remove_disclaimers_and_mentions`. -/
def disclaimerKeywords : List (List Char) :=
  ["rewrite".data, "rewriting".data, "disclaimer".data, "the article".data]

/-- The drop test of `remove_disclaimers_and_mentions`: does
`line.lower().strip()` contain one of the marker substrings? -/
def lineHasDisclaimerKeyword (line : List Char) : Bool :=
  disclaimerKeywords.any (fun kw => containsSeq kw (pyStrip (line.map Char.toLower)))

/-- Model of `remove_disclaimers_and_mentions` from src/tldr.py: drop marked
lines, join the survivors with single spaces, collapse whitespace runs and
strip. -/
def remove_disclaimers_and_mentions (text : List Char) : List Char :=
  pyStrip (collapseWs (joinWithSpace
    ((pySplitlines text).filter (fun l => !lineHasDisclaimerKeyword l))))

/-- `\s?` after a matched alternative: greedily consume one whitespace
character when present. -/
def consumeOptSpace : List Char → List Char
  | [] => []
  | c :: rest => if isPySpace c then rest else c :: rest

/-- Greedy `\d+` followed by the literal `stop`, then `\s?`; returns the
remainder after the match, or `none` when the pattern does not match here. -/
def matchDigitsThen (stop : Char) (s : List Char) : Option (List Char) :=
  if (s.takeWhile isDigitCh).isEmpty then none
  else
    match s.dropWhile isDigitCh with
    | c :: rest => if c = stop then some (consumeOptSpace rest) else none
    | [] => none

/-- The backtick character (used by the code-fence alternative). -/
def backtickCh : Char := Char.ofNat 96

/-- A match of the bullet pattern anchored at position 0, trying the
alternatives in the pattern's order: `(\*|-|\d+\.)\s?`, then `\d+\)\s?`,
then the code fence of three backticks.  Returns the remainder after the
matched span. -/
def matchAtStart (s : List Char) : Option (List Char) :=
  match s with
  | '*' :: rest => some (consumeOptSpace rest)
  | '-' :: rest => some (consumeOptSpace rest)
  | _ =>
    match matchDigitsThen '.' s with
    | some r => some r
    | none =>
      match matchDigitsThen ')' s with
      | some r => some r
      | none =>
        match s with
        | a :: b :: c :: rest =>
          if a = backtickCh ∧ b = backtickCh ∧ c = backtickCh then some rest else none
        | _ => none

/-- `re.sub` scanning past position 0: only the unanchored alternative
`\d+\)\s?` can match there.  `pend` is the (reversed) run of digits read so
far that may still become part of a match; `eatSp` records that a `\d+\)`
match just ended, so one following whitespace character is consumed by its
`\s?`. -/
def bsInner : Bool → List Char → List Char → List Char
  | _, pend, [] => pend.reverse
  | eatSp, pend, c :: rest =>
    if eatSp && isPySpace c then bsInner false pend rest
    else if isDigitCh c then bsInner false (c :: pend) rest
    else if c = ')' ∧ pend ≠ [] then bsInner true [] rest
    else pend.reverse ++ c :: bsInner false [] rest

/-- Model of `re.sub(bullet_pattern, "", line)` for the pattern
`^(\*|-|\d+\.)\s?|\d+\)\s?|^```​`: try the anchored alternatives at position
0, then scan the remainder for unanchored `\d+\)\s?` matches. -/
def bulletSub (s : List Char) : List Char :=
  match matchAtStart s with
  | some rest => bsInner false [] rest
  | none => bsInner false [] s

/-- Model of `strip_bullet_points` from src/tldr.py: per stripped line apply
the bullet-pattern substitution, drop lines that become empty, join with
single spaces, collapse whitespace runs and strip. -/
def strip_bullet_points (text : List Char) : List Char :=
  pyStrip (collapseWs (joinWithSpace
    (((pySplitlines text).map (fun l => bulletSub (pyStrip l))).filter
      (fun nl => !nl.isEmpty))))

/-- Model of the Python slice `text[:max_chars]`, including the negative
index semantics (`text[:n]` for `n < 0` keeps all but the last `-n`
characters, clamped at the empty string). -/
def pySliceTo (n : Int) (s : List Char) : List Char :=
  if n < 0 then s.take ((s.length : Int) + n).toNat else s.take n.toNat

/-- Model of `truncated.endswith(".")`. -/
def endsWithPeriod (s : List Char) : Bool := s.getLast? = some '.'

/-- Model of `enforce_character_limit` from src/tldr.py (the local
`truncated = text[:max_chars].rstrip()` is written out inline). -/
def enforce_character_limit (text : List Char) (maxChars : Int) : List Char :=
  if (text.length : Int) ≤ maxChars then text
  else if endsWithPeriod (pyRstrip (pySliceTo maxChars text)) then
    pyRstrip (pySliceTo maxChars text)
  else pyRstrip (pySliceTo maxChars text) ++ ['.']

/-- Model of `re.search(r"(\*|-|\d+\.)", s)` used as the bullet-detection
gate: does any position of `s` start a match of `\*`, `-` or `\d+\.`? -/
def hasBulletMarker : List Char → Bool
  | [] => false
  | c :: rest =>
    if c = '*' ∨ c = '-' then true
    else if isDigitCh c ∧ rest.head? = some '.' then true
    else hasBulletMarker rest

/-- Declarative reading of the bullet-detection gate: the text contains an
asterisk, a hyphen, or a digit immediately followed by a period. -/
def mentionsBulletMarker (s : List Char) : Prop :=
  '*' ∈ s ∨ '-' ∈ s ∨ ∃ l c r, s = l ++ c :: '.' :: r ∧ isDigitCh c = true

/-- Result of one pipeline run: the final summary plus the number of
completion-service invocations performed. -/
structure SummarizeResult where
  summary : List Char
  calls : Nat

/-- Model of `summarize_text_with_llama` from src/tldr.py, with the external
completion service injected as `complete : Nat → List Char` (the output of
the n-th `llama_run` invocation).  `calls` counts the completion calls. -/
def summarize_text_with_llama (complete : Nat → List Char) (maxChars : Int) :
    SummarizeResult :=
  let first_pass := complete 0
  let pass_one_cleaned := remove_disclaimers_and_mentions first_pass
  if hasBulletMarker pass_one_cleaned then
    let second_pass := complete 1
    let second_pass_cleaned := remove_disclaimers_and_mentions second_pass
    let final_text := strip_bullet_points second_pass_cleaned
    { summary := enforce_character_limit final_text maxChars, calls := 2 }
  else
    { summary := enforce_character_limit (strip_bullet_points pass_one_cleaned) maxChars,
      calls := 1 }

/-! ### Generic helper lemmas -/

theorem dropWhile_dropWhile (p : Char → Bool) (l : List Char) :
    (l.dropWhile p).dropWhile p = l.dropWhile p := by
  induction l with
  | nil => rfl
  | cons c t ih =>
    by_cases h : p c = true
    · rw [List.dropWhile_cons_of_pos h, ih]
    · rw [List.dropWhile_cons_of_neg h, List.dropWhile_cons_of_neg h]

theorem pyRstrip_idem (s : List Char) : pyRstrip (pyRstrip s) = pyRstrip s := by
  unfold pyRstrip
  rw [List.reverse_reverse, dropWhile_dropWhile]

theorem length_pyRstrip_le (s : List Char) : (pyRstrip s).length ≤ s.length := by
  unfold pyRstrip
  rw [List.length_reverse]
  calc (s.reverse.dropWhile isPySpace).length
      ≤ s.reverse.length := (List.dropWhile_sublist _).length_le
    _ = s.length := List.length_reverse s

/-! ### Claims about enforce_character_limit (C1, C6, C10) -/

/-- C1: for every text and every budget `b > 0`, the output of
`enforce_character_limit` has length at most `b + 1`, and whenever the text
already fits the budget it is returned unchanged. -/
theorem enforce_character_limit_budget_bound (text : List Char) (b : Int) (hb : 0 < b) :
    ((enforce_character_limit text b).length : Int) ≤ b + 1 ∧
    ((text.length : Int) ≤ b → enforce_character_limit text b = text) := by
  unfold enforce_character_limit
  by_cases h : (text.length : Int) ≤ b
  · rw [if_pos h]
    exact ⟨by omega, fun _ => rfl⟩
  · rw [if_neg h]
    refine ⟨?_, fun hc => absurd hc h⟩
    have hslice : pySliceTo b text = text.take b.toNat := by
      unfold pySliceTo
      rw [if_neg (by omega)]
    have h1 : (pyRstrip (pySliceTo b text)).length ≤ b.toNat := by
      rw [hslice]
      exact le_trans (length_pyRstrip_le _) (List.length_take_le _ _)
    by_cases hp : endsWithPeriod (pyRstrip (pySliceTo b text)) = true
    · rw [if_pos hp]
      omega
    · rw [if_neg hp, List.length_append]
      simp only [List.length_cons, List.length_nil]
      omega

/-- Witness for C1: the truncation bound at text `"hello"`, budget `3`, and
the identity case at text `"hi"`, budget `3`. -/
theorem enforce_character_limit_budget_bound_witness :
    ((enforce_character_limit "hello".data 3).length : Int) ≤ 3 + 1 ∧
    enforce_character_limit "hi".data 3 = "hi".data :=
  ⟨(enforce_character_limit_budget_bound "hello".data 3 (by decide)).1,
   (enforce_character_limit_budget_bound "hi".data 3 (by decide)).2 (by decide)⟩

/-- C6 counterexample: with the negative budget `-2` the Python slice
`"hello"[:-2]` is `"hel"`, not the empty string, so the output is `"hel."`
(length 4), refuting the claim that every budget `b ≤ 0` slices to the empty
string (which would force output `"."` or `""`). -/
theorem enforce_character_limit_negative_budget_cex :
    enforce_character_limit "hello".data (-2) = "hel.".data ∧
    pySliceTo (-2) "hello".data ≠ [] := by
  constructor
  · rfl
  · decide

/-- C6 (amended): `enforce_character_limit` is total; the slice considered
before the period is empty for budget `0`, and for a negative budget `b`
exactly when `b + length text ≤ 0` (Python's `text[:b]` keeps all but the
last `-b` characters); budget `0` on non-empty input yields exactly `"."`
(length 1). -/
theorem enforce_character_limit_degenerate (text : List Char) :
    pySliceTo 0 text = [] ∧
    (∀ b : Int, b + (text.length : Int) ≤ 0 → pySliceTo b text = []) ∧
    (text ≠ [] → enforce_character_limit text 0 = ['.']) := by
  have hz : pySliceTo 0 text = [] := by
    unfold pySliceTo
    rw [if_neg (by omega)]
    simp
  refine ⟨hz, ?_, ?_⟩
  · intro b hb
    unfold pySliceTo
    by_cases hneg : b < 0
    · rw [if_pos hneg]
      have hnn : ((text.length : Int) + b).toNat = 0 := by omega
      rw [hnn]
      simp
    · have hb0 : b.toNat = 0 := by omega
      rw [if_neg hneg, hb0]
      have h0 : text.length = 0 := by omega
      simp [h0]
  · intro hne
    have hpos : 0 < text.length := List.length_pos.mpr hne
    unfold enforce_character_limit
    rw [if_neg (by omega : ¬ ((text.length : Int) ≤ 0))]
    rw [hz]
    rfl

/-- Witness for C6 (amended) at text `"hello"` and, for the universally
quantified part, budget `-7`. -/
theorem enforce_character_limit_degenerate_witness :
    pySliceTo 0 "hello".data = [] ∧
    pySliceTo (-7) "hello".data = [] ∧
    enforce_character_limit "hello".data 0 = ['.'] :=
  ⟨(enforce_character_limit_degenerate "hello".data).1,
   (enforce_character_limit_degenerate "hello".data).2.1 (-7) (by decide),
   (enforce_character_limit_degenerate "hello".data).2.2 (by decide)⟩

/-- C10: `enforce_character_limit` is idempotent for every non-negative
budget. -/
theorem enforce_character_limit_idem (text : List Char) (b : Int) (hb : 0 ≤ b) :
    enforce_character_limit (enforce_character_limit text b) b =
      enforce_character_limit text b := by
  by_cases h : (text.length : Int) ≤ b
  · have e1 : enforce_character_limit text b = text := by
      unfold enforce_character_limit
      rw [if_pos h]
    rw [e1, e1]
  · have hslice : pySliceTo b text = text.take b.toNat := by
      unfold pySliceTo
      rw [if_neg (by omega)]
    have hlen : (pyRstrip (text.take b.toNat)).length ≤ b.toNat :=
      le_trans (length_pyRstrip_le _) (List.length_take_le _ _)
    have e0 : enforce_character_limit text b =
        if endsWithPeriod (pyRstrip (text.take b.toNat)) then
          pyRstrip (text.take b.toNat)
        else pyRstrip (text.take b.toNat) ++ ['.'] := by
      unfold enforce_character_limit
      rw [if_neg h, hslice]
    by_cases hp : endsWithPeriod (pyRstrip (text.take b.toNat)) = true
    · have e1 : enforce_character_limit text b = pyRstrip (text.take b.toNat) := by
        rw [e0, if_pos hp]
      rw [e1]
      unfold enforce_character_limit
      rw [if_pos (by omega : ((pyRstrip (text.take b.toNat)).length : Int) ≤ b)]
    · have e1 : enforce_character_limit text b = pyRstrip (text.take b.toNat) ++ ['.'] := by
        rw [e0, if_neg hp]
      rw [e1]
      by_cases h2 : (((pyRstrip (text.take b.toNat) ++ ['.']).length : Int)) ≤ b
      · unfold enforce_character_limit
        rw [if_pos h2]
      · have hl1 : (pyRstrip (text.take b.toNat) ++ ['.']).length =
            (pyRstrip (text.take b.toNat)).length + 1 := by
          simp
        have hlen2 : (pyRstrip (text.take b.toNat)).length = b.toNat := by omega
        unfold enforce_character_limit
        rw [if_neg h2]
        have hsl2 : pySliceTo b (pyRstrip (text.take b.toNat) ++ ['.']) =
            pyRstrip (text.take b.toNat) := by
          unfold pySliceTo
          rw [if_neg (by omega)]
          exact List.take_left' hlen2
        rw [hsl2, pyRstrip_idem, if_neg hp]

/-- Witness for C10 at text `"hello"` and budget `3`. -/
theorem enforce_character_limit_idem_witness :
    enforce_character_limit (enforce_character_limit "hello".data 3) 3 =
      enforce_character_limit "hello".data 3 :=
  enforce_character_limit_idem "hello".data 3 (by decide)

/-! ### Claim about remove_disclaimers_and_mentions (C7) -/

/-- C7: if every line of the input has (case-insensitively, after trimming)
one of the four disclaimer marker substrings, `remove_disclaimers_and_mentions`
returns the empty string. -/
theorem remove_disclaimers_drop_all (text : List Char)
    (h : ∀ l ∈ pySplitlines text, lineHasDisclaimerKeyword l = true) :
    remove_disclaimers_and_mentions text = [] := by
  unfold remove_disclaimers_and_mentions
  have hf : (pySplitlines text).filter (fun l => !lineHasDisclaimerKeyword l) = [] := by
    rw [List.filter_eq_nil_iff]
    intro a ha
    simp [h a ha]
  rw [hf]
  rfl

/-- Witness for C7 on a three-line input whose lines mention "rewrite",
"the article" and "disclaimer" respectively. -/
theorem remove_disclaimers_drop_all_witness :
    remove_disclaimers_and_mentions "Please rewrite it\nThe Article intro\nDISCLAIMER".data = [] :=
  remove_disclaimers_drop_all _ (by decide)

/-! ### Claim about the two-pass trigger (C2) -/

theorem hasBulletMarker_iff (s : List Char) :
    hasBulletMarker s = true ↔ mentionsBulletMarker s := by
  induction s with
  | nil =>
    constructor
    · intro h
      simp [hasBulletMarker] at h
    · rintro (h | h | ⟨l, d, r, heq, hd⟩)
      · simp at h
      · simp at h
      · exact absurd heq (by simp)
  | cons c rest ih =>
    by_cases h1 : c = '*' ∨ c = '-'
    · simp only [hasBulletMarker, if_pos h1]
      refine iff_of_true trivial ?_
      rcases h1 with h1 | h1
      · exact Or.inl (by rw [h1]; exact List.mem_cons_self _ _)
      · exact Or.inr (Or.inl (by rw [h1]; exact List.mem_cons_self _ _))
    · by_cases h2 : isDigitCh c = true ∧ rest.head? = some '.'
      · simp only [hasBulletMarker, if_neg h1, if_pos h2]
        refine iff_of_true trivial ?_
        right; right
        obtain ⟨hd, hh⟩ := h2
        obtain ⟨t, ht⟩ : ∃ t, rest = '.' :: t := by
          cases rest with
          | nil => exact absurd hh (by simp)
          | cons a t =>
            simp only [List.head?_cons, Option.some.injEq] at hh
            exact ⟨t, by rw [hh]⟩
        exact ⟨[], c, t, by rw [ht]; rfl, hd⟩
      · simp only [hasBulletMarker, if_neg h1, if_neg h2]
        rw [ih]
        unfold mentionsBulletMarker
        constructor
        · rintro (h | h | ⟨l, d, r, heq, hd⟩)
          · exact Or.inl (List.mem_cons_of_mem _ h)
          · exact Or.inr (Or.inl (List.mem_cons_of_mem _ h))
          · exact Or.inr (Or.inr ⟨c :: l, d, r, by rw [heq]; rfl, hd⟩)
        · rintro (h | h | ⟨l, d, r, heq, hd⟩)
          · rcases List.mem_cons.mp h with h | h
            · exact absurd (Or.inl h.symm) h1
            · exact Or.inl h
          · rcases List.mem_cons.mp h with h | h
            · exact absurd (Or.inr h.symm) h1
            · exact Or.inr (Or.inl h)
          · cases l with
            | nil =>
              simp only [List.nil_append] at heq
              injection heq with hc hrest
              exact absurd ⟨hc ▸ hd, by rw [hrest]; rfl⟩ h2
            | cons a l2 =>
              rw [List.cons_append] at heq
              injection heq with hca hrest
              exact Or.inr (Or.inr ⟨l2, d, r, hrest, hd⟩)

/-- C2: the pipeline makes at most two completion calls; it makes exactly two
precisely when the disclaimer-cleaned first-pass output contains an asterisk,
a hyphen, or a digit immediately followed by a period; in particular the
first-pass output `"- one\n- two"` triggers a second call and
`"Plain sentence with no markers."` does not. -/
theorem summarize_completion_call_count :
    (∀ (complete : Nat → List Char) (b : Int),
      (summarize_text_with_llama complete b).calls ≤ 2) ∧
    (∀ (complete : Nat → List Char) (b : Int),
      ((summarize_text_with_llama complete b).calls = 2 ↔
        mentionsBulletMarker (remove_disclaimers_and_mentions (complete 0)))) ∧
    (summarize_text_with_llama
      (fun n => if n = 0 then "- one\n- two".data else "ok.".data) 500).calls = 2 ∧
    (summarize_text_with_llama
      (fun _ => "Plain sentence with no markers.".data) 500).calls = 1 := by
  refine ⟨?_, ?_, ?_, ?_⟩
  · intro complete b
    by_cases h : hasBulletMarker (remove_disclaimers_and_mentions (complete 0)) = true
    · have h2 : (summarize_text_with_llama complete b).calls = 2 := by
        simp [summarize_text_with_llama, h]
      omega
    · have h2 : (summarize_text_with_llama complete b).calls = 1 := by
        simp [summarize_text_with_llama, h]
      omega
  · intro complete b
    by_cases h : hasBulletMarker (remove_disclaimers_and_mentions (complete 0)) = true
    · have h2 : (summarize_text_with_llama complete b).calls = 2 := by
        simp [summarize_text_with_llama, h]
      rw [h2]
      exact iff_of_true rfl ((hasBulletMarker_iff _).mp h)
    · have h2 : (summarize_text_with_llama complete b).calls = 1 := by
        simp [summarize_text_with_llama, h]
      rw [h2]
      exact iff_of_false (by omega) (fun hm => h ((hasBulletMarker_iff _).mpr hm))
  · decide
  · decide

/-! ### C3: the mid-line enumeration marker is in fact removed -/

/-- C3 (evaluation at the failing inputs): `re.sub` applies the unanchored
`\d+\)\s?` alternative globally, so mid-line enumeration markers such as
`"3) "` are removed, contrary to the line-start-only comment in the code. -/
theorem strip_bullet_points_midline_enum_removed :
    strip_bullet_points "see 3) item".data = "see item".data ∧
    strip_bullet_points "1) a 2) b".data = "a b".data := by
  exact ⟨rfl, rfl⟩

/-! ### C8: end-to-end example -/

/-- The completion oracle of the end-to-end example: the first call returns a
two-bullet summary, the second call returns the clean sentence. -/
def c8Oracle (n : Nat) : List Char :=
  if n = 0 then "- Summary point A\n- Summary point B about something long".data
  else "Summary about A and B.".data

/-- C8 counterexample: the final output `"Summary about A and B."` has 22
characters, not 38 as the claim states. -/
theorem summarize_e2e_length_cex :
    (summarize_text_with_llama c8Oracle 50).summary.length ≠ 38 := by decide

/-- C8 (amended): with budget 50 and the example oracle, the pipeline detects
bullets, makes the second call, and returns exactly
`"Summary about A and B."` — 22 characters, under budget, with no trailing
period appended. -/
theorem summarize_e2e_example :
    (summarize_text_with_llama c8Oracle 50).calls = 2 ∧
    (summarize_text_with_llama c8Oracle 50).summary = "Summary about A and B.".data ∧
    (summarize_text_with_llama c8Oracle 50).summary.length = 22 ∧
    (summarize_text_with_llama c8Oracle 50).summary.length ≤ 50 := by
  refine ⟨by decide, by decide, by decide, by decide⟩

/-! ### Whitespace-shape infrastructure -/

/-- Adjacent characters are never both whitespace. -/
def noTwoWsRel (a b : Char) : Prop := ¬(isPySpace a = true ∧ isPySpace b = true)

/-- A digit is never immediately followed by a close-paren. -/
def noDigitParenRel (a b : Char) : Prop := isDigitCh a = true → b ≠ ')'

theorem isPySpace_of_isLineBreak {c : Char} (h : isLineBreak c = true) :
    isPySpace c = true := by
  unfold isLineBreak at h
  rw [decide_eq_true_eq] at h
  rcases h with h|h|h|h|h|h|h|h|h|h <;> subst h <;> decide

theorem mem_of_getLast?_eq {x : Char} {l : List Char} (h : l.getLast? = some x) : x ∈ l := by
  rw [← List.head?_reverse] at h
  exact List.mem_reverse.mp (List.mem_of_mem_head? (Option.mem_def.mpr h))

/-! Equation lemmas for `collapseWsAux`. -/

theorem collapseWsAux_cons_ws_true {c : Char} (h : isPySpace c = true) (t : List Char) :
    collapseWsAux true (c :: t) = collapseWsAux true t := by
  simp [collapseWsAux, h]

theorem collapseWsAux_cons_ws_false {c : Char} (h : isPySpace c = true) (t : List Char) :
    collapseWsAux false (c :: t) = ' ' :: collapseWsAux true t := by
  simp [collapseWsAux, h]

theorem collapseWsAux_cons_nws {c : Char} (h : isPySpace c = false) (b : Bool) (t : List Char) :
    collapseWsAux b (c :: t) = c :: collapseWsAux false t := by
  simp [collapseWsAux, h]

theorem mem_collapseWsAux_ws {c : Char} :
    ∀ (t : List Char) (b : Bool), c ∈ collapseWsAux b t → isPySpace c = true → c = ' ' := by
  intro t
  induction t with
  | nil => intro b h; exact absurd h (by simp [collapseWsAux])
  | cons d rest ih =>
    intro b hmem hws
    by_cases hd : isPySpace d = true
    · cases b with
      | true =>
        rw [collapseWsAux_cons_ws_true hd] at hmem
        exact ih true hmem hws
      | false =>
        rw [collapseWsAux_cons_ws_false hd] at hmem
        rcases List.mem_cons.mp hmem with h | h
        · exact h
        · exact ih true h hws
    · have hd' : isPySpace d = false := by simpa using hd
      rw [collapseWsAux_cons_nws hd'] at hmem
      rcases List.mem_cons.mp hmem with h | h
      · rw [h] at hws
        exact absurd hws (by simp [hd'])
      · exact ih false h hws

theorem collapseWsAux_true_head :
    ∀ (t : List Char), ∀ c ∈ (collapseWsAux true t).head?, isPySpace c = false := by
  intro t
  induction t with
  | nil => intro c hc; exact absurd hc (by simp [collapseWsAux])
  | cons d rest ih =>
    intro c hc
    by_cases hd : isPySpace d = true
    · rw [collapseWsAux_cons_ws_true hd] at hc
      exact ih c hc
    · have hd' : isPySpace d = false := by simpa using hd
      rw [collapseWsAux_cons_nws hd'] at hc
      have hcd : d = c := by simpa using hc
      rw [← hcd]
      exact hd'

theorem collapseWsAux_false_head (t : List Char) :
    ∀ y ∈ (collapseWsAux false t).head?, y = ' ' ∨ y ∈ t.head? := by
  cases t with
  | nil => intro y hy; exact absurd hy (by simp [collapseWsAux])
  | cons d rest =>
    intro y hy
    by_cases hd : isPySpace d = true
    · rw [collapseWsAux_cons_ws_false hd] at hy
      left
      have hsp : ' ' = y := by simpa using hy
      exact hsp.symm
    · have hd' : isPySpace d = false := by simpa using hd
      rw [collapseWsAux_cons_nws hd'] at hy
      right
      have : d = y := by simpa using hy
      simp [← this]

theorem chain_noTwoWs_collapseWsAux :
    ∀ (t : List Char) (b : Bool), List.Chain' noTwoWsRel (collapseWsAux b t) := by
  intro t
  induction t with
  | nil => intro b; simp [collapseWsAux]
  | cons d rest ih =>
    intro b
    by_cases hd : isPySpace d = true
    · cases b with
      | true => rw [collapseWsAux_cons_ws_true hd]; exact ih true
      | false =>
        rw [collapseWsAux_cons_ws_false hd, List.chain'_cons']
        refine ⟨?_, ih true⟩
        intro y hy
        have hny := collapseWsAux_true_head rest y hy
        intro hcon
        rw [hny] at hcon
        exact absurd hcon.2 (by simp)
    · have hd' : isPySpace d = false := by simpa using hd
      rw [collapseWsAux_cons_nws hd', List.chain'_cons']
      refine ⟨?_, ih false⟩
      intro y _
      intro hcon
      rw [hd'] at hcon
      exact absurd hcon.1 (by simp)

theorem collapseWsAux_fix :
    ∀ (z : List Char) (b : Bool),
      (∀ c ∈ z, isPySpace c = true → c = ' ') →
      List.Chain' noTwoWsRel z →
      (b = true → ∀ c ∈ z.head?, isPySpace c = false) →
      collapseWsAux b z = z := by
  intro z
  induction z with
  | nil => intro b _ _ _; rfl
  | cons d rest ih =>
    intro b hmem hchain hhead
    by_cases hd : isPySpace d = true
    · have hd' : d = ' ' := hmem d (List.mem_cons_self _ _) hd
      cases b with
      | true =>
        have := hhead rfl d (by simp)
        rw [this] at hd
        exact absurd hd (by simp)
      | false =>
        rw [collapseWsAux_cons_ws_false hd, hd']
        congr 1
        apply ih true
        · intro c hc hcs; exact hmem c (List.mem_cons_of_mem _ hc) hcs
        · exact (List.chain'_cons'.mp hchain).2
        · intro _ c hc
          have hrel := (List.chain'_cons'.mp hchain).1 c hc
          by_contra hcc
          exact hrel ⟨hd, by simpa using hcc⟩
    · have hd' : isPySpace d = false := by simpa using hd
      rw [collapseWsAux_cons_nws hd']
      congr 1
      apply ih false
      · intro c hc hcs; exact hmem c (List.mem_cons_of_mem _ hc) hcs
      · exact (List.chain'_cons'.mp hchain).2
      · intro hfalse; exact absurd hfalse (by simp)

theorem chain_collapseWsAux_preserve (R : Char → Char → Prop)
    (hxs : ∀ x, R x ' ') (hsy : ∀ y, R ' ' y) :
    ∀ (t : List Char) (b : Bool), List.Chain' R t → List.Chain' R (collapseWsAux b t) := by
  intro t
  induction t with
  | nil => intro b _; simp [collapseWsAux]
  | cons d rest ih =>
    intro b hchain
    have htl : List.Chain' R rest := (List.chain'_cons'.mp hchain).2
    by_cases hd : isPySpace d = true
    · cases b with
      | true => rw [collapseWsAux_cons_ws_true hd]; exact ih true htl
      | false =>
        rw [collapseWsAux_cons_ws_false hd, List.chain'_cons']
        exact ⟨fun y _ => hsy y, ih true htl⟩
    · have hd' : isPySpace d = false := by simpa using hd
      rw [collapseWsAux_cons_nws hd', List.chain'_cons']
      refine ⟨?_, ih false htl⟩
      intro y hy
      rcases collapseWsAux_false_head rest y hy with h | h
      · rw [h]; exact hxs d
      · exact (List.chain'_cons'.mp hchain).1 y h

theorem chain_joinWithSpace (R : Char → Char → Prop)
    (hxs : ∀ x, R x ' ') (hsy : ∀ y, R ' ' y) :
    ∀ parts : List (List Char), (∀ p ∈ parts, List.Chain' R p) →
      List.Chain' R (joinWithSpace parts) := by
  intro parts
  induction parts with
  | nil => intro _; simp [joinWithSpace]
  | cons l ls ih =>
    intro hall
    cases ls with
    | nil => exact hall l (by simp)
    | cons l2 ls2 =>
      rw [show joinWithSpace (l :: l2 :: ls2) = l ++ ' ' :: joinWithSpace (l2 :: ls2) from rfl]
      rw [List.chain'_append]
      refine ⟨hall l (by simp), ?_, ?_⟩
      · rw [List.chain'_cons']
        exact ⟨fun y _ => hsy y, ih (fun p hp => hall p (List.mem_cons_of_mem _ hp))⟩
      · intro x _ y hy
        have : ' ' = y := by simpa using hy
        rw [← this]
        exact hxs x

theorem chain_dropWhile (R : Char → Char → Prop) (p : Char → Bool) :
    ∀ l : List Char, List.Chain' R l → List.Chain' R (l.dropWhile p) := by
  intro l
  induction l with
  | nil => intro _; simp
  | cons c t ih =>
    intro h
    by_cases hp : p c = true
    · rw [List.dropWhile_cons_of_pos hp]
      exact ih (List.chain'_cons'.mp h).2
    · rw [List.dropWhile_cons_of_neg hp]
      exact h

theorem chain_pyRstrip (R : Char → Char → Prop) (s : List Char)
    (h : List.Chain' R s) : List.Chain' R (pyRstrip s) := by
  unfold pyRstrip
  rw [List.chain'_reverse]
  apply chain_dropWhile
  have h2 : List.Chain' R s.reverse.reverse := by
    rw [List.reverse_reverse]; exact h
  exact List.chain'_reverse.mp h2

theorem chain_pyStrip (R : Char → Char → Prop) (s : List Char)
    (h : List.Chain' R s) : List.Chain' R (pyStrip s) := by
  unfold pyStrip pyLstrip
  exact chain_pyRstrip R _ (chain_dropWhile R _ s h)

theorem mem_pyRstrip {c : Char} (s : List Char) (h : c ∈ pyRstrip s) : c ∈ s := by
  unfold pyRstrip at h
  rw [List.mem_reverse] at h
  exact List.mem_reverse.mp ((List.dropWhile_sublist _).mem h)

theorem mem_pyStrip {c : Char} (s : List Char) (h : c ∈ pyStrip s) : c ∈ s := by
  unfold pyStrip pyLstrip at h
  exact (List.dropWhile_sublist _).mem (mem_pyRstrip _ h)

theorem head_dropWhile_false (p : Char → Bool) :
    ∀ l : List Char, ∀ c ∈ (l.dropWhile p).head?, p c = false := by
  intro l
  induction l with
  | nil => intro c hc; exact absurd hc (by simp)
  | cons d t ih =>
    intro c hc
    by_cases hp : p d = true
    · rw [List.dropWhile_cons_of_pos hp] at hc
      exact ih c hc
    · rw [List.dropWhile_cons_of_neg hp] at hc
      have : d = c := by simpa using hc
      rw [← this]
      simpa using hp

theorem pyRstrip_getLast (s : List Char) :
    ∀ c ∈ (pyRstrip s).getLast?, isPySpace c = false := by
  intro c hc
  unfold pyRstrip at hc
  rw [Option.mem_def, List.getLast?_reverse] at hc
  exact head_dropWhile_false _ _ c (Option.mem_def.mpr hc)

theorem pyRstrip_decomp (s : List Char) : ∃ t, s = pyRstrip s ++ t := by
  refine ⟨(s.reverse.takeWhile isPySpace).reverse, ?_⟩
  unfold pyRstrip
  rw [← List.reverse_append, List.takeWhile_append_dropWhile, List.reverse_reverse]

theorem pyRstrip_head (s : List Char) :
    ∀ c ∈ (pyRstrip s).head?, s.head? = some c := by
  obtain ⟨t, ht⟩ := pyRstrip_decomp s
  intro c hc
  rw [Option.mem_def] at hc
  conv_lhs => rw [ht]
  rw [List.head?_append, hc]
  rfl

theorem pyStrip_head (s : List Char) :
    ∀ c ∈ (pyStrip s).head?, isPySpace c = false := by
  intro c hc
  unfold pyStrip at hc
  have h2 := pyRstrip_head (pyLstrip s) c hc
  unfold pyLstrip at h2
  exact head_dropWhile_false _ _ c (Option.mem_def.mpr h2)

theorem pyStrip_getLast (s : List Char) :
    ∀ c ∈ (pyStrip s).getLast?, isPySpace c = false := by
  unfold pyStrip
  exact pyRstrip_getLast _

theorem dropWhile_fix (p : Char → Bool) (l : List Char)
    (h : ∀ c ∈ l.head?, p c = false) : l.dropWhile p = l := by
  cases l with
  | nil => rfl
  | cons c t =>
    rw [List.dropWhile_cons_of_neg]
    have := h c (by simp)
    simp [this]

theorem pyRstrip_fix (s : List Char)
    (h : ∀ c ∈ s.getLast?, isPySpace c = false) : pyRstrip s = s := by
  unfold pyRstrip
  rw [dropWhile_fix _ _ ?_, List.reverse_reverse]
  intro c hc
  rw [Option.mem_def, List.head?_reverse] at hc
  exact h c (Option.mem_def.mpr hc)

theorem pyStrip_fix (s : List Char)
    (hh : ∀ c ∈ s.head?, isPySpace c = false)
    (hl : ∀ c ∈ s.getLast?, isPySpace c = false) : pyStrip s = s := by
  unfold pyStrip pyLstrip
  rw [dropWhile_fix _ _ hh]
  exact pyRstrip_fix s hl

/-- The shape of every string produced by a `re.sub(r"\s+", " ", _).strip()`
pipeline tail: all whitespace is a plain space, no two adjacent characters
are both whitespace, and the ends are not whitespace. -/
def wsFlat (s : List Char) : Prop :=
  (∀ c ∈ s, isPySpace c = true → c = ' ') ∧
  List.Chain' noTwoWsRel s ∧
  (∀ c ∈ s.head?, isPySpace c = false) ∧
  (∀ c ∈ s.getLast?, isPySpace c = false)

theorem wsFlat_pyStrip_collapse (t : List Char) : wsFlat (pyStrip (collapseWs t)) := by
  refine ⟨?_, ?_, pyStrip_head _, pyStrip_getLast _⟩
  · intro c hc hcs
    exact mem_collapseWsAux_ws t false (mem_pyStrip _ hc) hcs
  · exact chain_pyStrip _ _ (chain_noTwoWs_collapseWsAux t false)

theorem wsFlat_enforce (s : List Char) (b : Int) (h : wsFlat s) :
    wsFlat (enforce_character_limit s b) := by
  obtain ⟨hmem, hchain, hhead, hlast⟩ := h
  unfold enforce_character_limit
  by_cases hle : (s.length : Int) ≤ b
  · rw [if_pos hle]
    exact ⟨hmem, hchain, hhead, hlast⟩
  · rw [if_neg hle]
    obtain ⟨K, hK⟩ : ∃ K, pySliceTo b s = s.take K := by
      unfold pySliceTo
      by_cases hb : b < 0
      · exact ⟨_, if_pos hb⟩
      · exact ⟨_, if_neg hb⟩
    have tmem : ∀ c ∈ pyRstrip (pySliceTo b s), c ∈ s := by
      intro c hc
      have h2 := mem_pyRstrip _ hc
      rw [hK] at h2
      exact (List.take_sublist _ _).mem h2
    have tchain : List.Chain' noTwoWsRel (pyRstrip (pySliceTo b s)) := by
      apply chain_pyRstrip
      rw [hK]
      have h2 := hchain
      rw [← List.take_append_drop K s] at h2
      exact (List.chain'_append.mp h2).1
    have thead : ∀ c ∈ (pyRstrip (pySliceTo b s)).head?, isPySpace c = false := by
      intro c hc
      have h2 := pyRstrip_head _ c hc
      rw [hK] at h2
      have h3 : s.head? = some c := by
        cases K with
        | zero => simp at h2
        | succ k =>
          cases s with
          | nil => simp at h2
          | cons a t => simpa using h2
      exact hhead c (Option.mem_def.mpr h3)
    have tlast := pyRstrip_getLast (pySliceTo b s)
    by_cases hp : endsWithPeriod (pyRstrip (pySliceTo b s)) = true
    · rw [if_pos hp]
      exact ⟨fun c hc => hmem c (tmem c hc), tchain, thead, tlast⟩
    · rw [if_neg hp]
      refine ⟨?_, ?_, ?_, ?_⟩
      · intro c hc hcs
        rcases List.mem_append.mp hc with h2 | h2
        · exact hmem c (tmem c h2) hcs
        · have : c = '.' := by simpa using h2
          rw [this] at hcs
          exact absurd hcs (by decide)
      · rw [List.chain'_append]
        refine ⟨tchain, by simp, ?_⟩
        intro x _ y hy
        have hy' : '.' = y := by simpa using hy
        intro hcon
        rw [← hy'] at hcon
        exact absurd hcon.2 (by decide)
      · intro c hc
        rw [Option.mem_def, List.head?_append] at hc
        cases htr : (pyRstrip (pySliceTo b s)).head? with
        | none =>
          rw [htr] at hc
          have : c = '.' := by simpa using hc.symm
          rw [this]
          decide
        | some a =>
          rw [htr] at hc
          have hca : c = a := by simpa using hc.symm
          rw [hca]
          exact thead a (Option.mem_def.mpr htr)
      · intro c hc
        rw [Option.mem_def, List.getLast?_concat] at hc
        have : c = '.' := by simpa using hc.symm
        rw [this]
        decide

/-! ### C9: whitespace invariants of the final summary -/

/-- C9: for every injected completion oracle and every budget, the final
summary contains no newline, no two adjacent whitespace characters (hence no
run of two or more), and no leading or trailing whitespace. -/
theorem summarize_whitespace_invariants (complete : Nat → List Char) (b : Int) :
    '\n' ∉ (summarize_text_with_llama complete b).summary ∧
    List.Chain' noTwoWsRel (summarize_text_with_llama complete b).summary ∧
    (∀ c ∈ (summarize_text_with_llama complete b).summary.head?, isPySpace c = false) ∧
    (∀ c ∈ (summarize_text_with_llama complete b).summary.getLast?, isPySpace c = false) := by
  obtain ⟨z, hz⟩ : ∃ z, (summarize_text_with_llama complete b).summary =
      enforce_character_limit (strip_bullet_points z) b := by
    by_cases h : hasBulletMarker (remove_disclaimers_and_mentions (complete 0)) = true
    · exact ⟨remove_disclaimers_and_mentions (complete 1),
        by simp [summarize_text_with_llama, h]⟩
    · exact ⟨remove_disclaimers_and_mentions (complete 0),
        by simp [summarize_text_with_llama, h]⟩
  have key : wsFlat (enforce_character_limit (strip_bullet_points z) b) := by
    apply wsFlat_enforce
    unfold strip_bullet_points
    exact wsFlat_pyStrip_collapse _
  rw [hz]
  obtain ⟨hmem, hchain, hhead, hlast⟩ := key
  refine ⟨?_, hchain, hhead, hlast⟩
  intro hmem'
  have h2 := hmem '\n' hmem' (by decide)
  exact absurd h2 (by decide)

/-! ### The digit-close-paren invariant of the bullet substitution -/

theorem bsInner_nil (e : Bool) (pend : List Char) : bsInner e pend [] = pend.reverse := rfl

theorem bsInner_cons (e : Bool) (pend : List Char) (c : Char) (rest : List Char) :
    bsInner e pend (c :: rest) =
      if (e && isPySpace c) = true then bsInner false pend rest
      else if isDigitCh c = true then bsInner false (c :: pend) rest
      else if c = ')' ∧ pend ≠ [] then bsInner true [] rest
      else pend.reverse ++ c :: bsInner false [] rest := rfl

theorem chain_noDP_of_all_digits :
    ∀ l : List Char, (∀ c ∈ l, isDigitCh c = true) → List.Chain' noDigitParenRel l := by
  intro l
  induction l with
  | nil => intro _; simp
  | cons c t ih =>
    intro h
    rw [List.chain'_cons']
    refine ⟨?_, ih (fun d hd => h d (List.mem_cons_of_mem _ hd))⟩
    intro y hy
    unfold noDigitParenRel
    intro _ hy'
    have hyd : isDigitCh y = true := h y (List.mem_cons_of_mem _ (List.mem_of_mem_head? hy))
    rw [hy'] at hyd
    exact absurd hyd (by decide)

theorem chain_noDP_bsInner :
    ∀ (s : List Char) (e : Bool) (pend : List Char),
      (∀ c ∈ pend, isDigitCh c = true) →
      List.Chain' noDigitParenRel (bsInner e pend s) := by
  intro s
  induction s with
  | nil =>
    intro e pend hp
    rw [bsInner_nil]
    exact chain_noDP_of_all_digits _ (fun c hc => hp c (List.mem_reverse.mp hc))
  | cons c rest ih =>
    intro e pend hp
    rw [bsInner_cons]
    by_cases h1 : (e && isPySpace c) = true
    · rw [if_pos h1]
      exact ih false pend hp
    · rw [if_neg h1]
      by_cases h2 : isDigitCh c = true
      · rw [if_pos h2]
        apply ih
        intro d hd
        rcases List.mem_cons.mp hd with h | h
        · rw [h]; exact h2
        · exact hp d h
      · rw [if_neg h2]
        have h2' : isDigitCh c = false := by simpa using h2
        by_cases h3 : c = ')' ∧ pend ≠ []
        · rw [if_pos h3]
          exact ih true [] (by simp)
        · rw [if_neg h3]
          rw [List.chain'_append]
          refine ⟨?_, ?_, ?_⟩
          · exact chain_noDP_of_all_digits _ (fun d hd => hp d (List.mem_reverse.mp hd))
          · rw [List.chain'_cons']
            refine ⟨?_, ih false [] (by simp)⟩
            intro y _
            unfold noDigitParenRel
            intro hcon
            rw [h2'] at hcon
            exact absurd hcon (by simp)
          · intro x hx y hy
            have hyc : c = y := by simpa using hy
            have hxp : x ∈ pend := List.mem_reverse.mp (mem_of_getLast?_eq hx)
            unfold noDigitParenRel
            intro _
            rw [← hyc]
            intro hc'
            refine h3 ⟨hc', ?_⟩
            intro hpe
            rw [hpe] at hxp
            exact absurd hxp (List.not_mem_nil x)

theorem bsInner_id :
    ∀ (s : List Char) (pend : List Char),
      (∀ c ∈ pend, isDigitCh c = true) →
      List.Chain' noDigitParenRel (pend.reverse ++ s) →
      bsInner false pend s = pend.reverse ++ s := by
  intro s
  induction s with
  | nil => intro pend _ _; rw [bsInner_nil, List.append_nil]
  | cons c rest ih =>
    intro pend hp hchain
    have h1 : ((false : Bool) && isPySpace c) = false := by simp
    rw [bsInner_cons, if_neg (by simp [h1])]
    by_cases h2 : isDigitCh c = true
    · rw [if_pos h2]
      have hp' : ∀ d ∈ c :: pend, isDigitCh d = true := by
        intro d hd
        rcases List.mem_cons.mp hd with h | h
        · rw [h]; exact h2
        · exact hp d h
      have heq : (c :: pend).reverse ++ rest = pend.reverse ++ c :: rest := by
        rw [List.reverse_cons, List.append_assoc]
        rfl
      rw [ih (c :: pend) hp' (by rw [heq]; exact hchain), heq]
    · rw [if_neg h2]
      by_cases h3 : c = ')' ∧ pend ≠ []
      · exfalso
        obtain ⟨hc', hpe⟩ := h3
        have hb := (List.chain'_append.mp hchain).2.2
        have hrne : pend.reverse ≠ [] := by simpa using hpe
        obtain ⟨x, hx⟩ : ∃ x, pend.reverse.getLast? = some x := by
          cases hgl : pend.reverse.getLast? with
          | none => exact absurd (List.getLast?_eq_none_iff.mp hgl) hrne
          | some x => exact ⟨x, rfl⟩
        have hxd : isDigitCh x = true := hp x (List.mem_reverse.mp (mem_of_getLast?_eq hx))
        have hrel := hb x (Option.mem_def.mpr hx) c (by simp)
        unfold noDigitParenRel at hrel
        exact (hrel hxd) hc'
      · rw [if_neg h3]
        have hrest : List.Chain' noDigitParenRel rest :=
          ((List.chain'_append.mp hchain).2.1).tail
        rw [ih [] (by simp) (by simpa using hrest)]
        simp

theorem chain_noDP_bulletSub (s : List Char) :
    List.Chain' noDigitParenRel (bulletSub s) := by
  unfold bulletSub
  cases hms : matchAtStart s with
  | some rest => exact chain_noDP_bsInner rest false [] (by simp)
  | none => exact chain_noDP_bsInner s false [] (by simp)

theorem chain_noDP_strip_bullet_points (t : List Char) :
    List.Chain' noDigitParenRel (strip_bullet_points t) := by
  have hxs : ∀ x, noDigitParenRel x ' ' := by
    intro x
    unfold noDigitParenRel
    intro _
    decide
  have hsy : ∀ y, noDigitParenRel ' ' y := by
    intro y
    unfold noDigitParenRel
    intro h
    exact absurd h (by decide)
  unfold strip_bullet_points
  apply chain_pyStrip
  apply chain_collapseWsAux_preserve noDigitParenRel hxs hsy
  apply chain_joinWithSpace noDigitParenRel hxs hsy
  intro p hp
  obtain ⟨hp1, _⟩ := List.mem_filter.mp hp
  obtain ⟨l, _, hl⟩ := List.mem_map.mp hp1
  rw [← hl]
  exact chain_noDP_bulletSub _

/-! ### C5: which leading markers are guaranteed gone -/

/-- C5 counterexample: stripping removes only the first leading marker, so a
line with stacked markers still begins with a recognized marker after one
pass: `strip_structural_markup "* * y" = "* y"`, which the anchored bullet
pattern still matches. -/
theorem strip_bullet_points_marker_survives_cex :
    strip_bullet_points "* * y".data = "* y".data ∧
    (matchAtStart "* y".data).isSome = true := by
  exact ⟨rfl, by decide⟩

/-- C5 (amended): the output of `strip_structural_markup` never begins with a
digit-run followed by a close-paren (that enumeration marker is stripped
globally); the other recognized markers (asterisk, hyphen, digit+period,
code fence) can survive at the start when stripping the single leading
marker exposes a stacked one. -/
theorem strip_bullet_points_no_leading_enum_paren (text : List Char) :
    matchDigitsThen ')' (strip_bullet_points text) = none := by
  have hchain := chain_noDP_strip_bullet_points text
  unfold matchDigitsThen
  by_cases he : ((strip_bullet_points text).takeWhile isDigitCh).isEmpty = true
  · rw [if_pos he]
  · rw [if_neg he]
    cases hd : (strip_bullet_points text).dropWhile isDigitCh with
    | nil => rfl
    | cons c rest =>
      show (if c = ')' then some (consumeOptSpace rest) else none) = none
      by_cases hc : c = ')'
      · exfalso
        have hy : strip_bullet_points text =
            (strip_bullet_points text).takeWhile isDigitCh ++
              ((strip_bullet_points text).dropWhile isDigitCh) :=
          (List.takeWhile_append_dropWhile _ _).symm
        rw [hy, hd] at hchain
        have hb := (List.chain'_append.mp hchain).2.2
        have hne : (strip_bullet_points text).takeWhile isDigitCh ≠ [] := by
          simpa [List.isEmpty_iff] using he
        obtain ⟨x, hx⟩ : ∃ x,
            ((strip_bullet_points text).takeWhile isDigitCh).getLast? = some x := by
          cases hgl : ((strip_bullet_points text).takeWhile isDigitCh).getLast? with
          | none => exact absurd (List.getLast?_eq_none_iff.mp hgl) hne
          | some x => exact ⟨x, rfl⟩
        have hxd : isDigitCh x = true := List.mem_takeWhile_imp (mem_of_getLast?_eq hx)
        have hrel := hb x (Option.mem_def.mpr hx) c (by simp)
        unfold noDigitParenRel at hrel
        exact (hrel hxd) hc
      · rw [if_neg hc]

/-! ### C4: idempotence of strip_structural_markup -/

/-- C4 counterexample: `strip_structural_markup` is not idempotent — on
`"- - x"` one pass yields `"- x"` and a second pass yields `"x"`. -/
theorem strip_bullet_points_not_idem_cex :
    strip_bullet_points (strip_bullet_points "- - x".data) ≠
      strip_bullet_points "- - x".data := by decide

theorem pySplitlinesAux_cons (b : Bool) (cur : List Char) (d : Char) (rest : List Char) :
    pySplitlinesAux b cur (d :: rest) =
      if b = true ∧ d = '\n' then pySplitlinesAux false cur rest
      else if d = '\r' then cur.reverse :: pySplitlinesAux true [] rest
      else if isLineBreak d = true then cur.reverse :: pySplitlinesAux false [] rest
      else pySplitlinesAux false (d :: cur) rest := rfl

theorem pySplitlinesAux_single :
    ∀ (s : List Char) (cur : List Char),
      (∀ c ∈ s, isLineBreak c = false) →
      pySplitlinesAux false cur s =
        if (cur.reverse ++ s).isEmpty then [] else [cur.reverse ++ s] := by
  intro s
  induction s with
  | nil =>
    intro cur _
    cases cur with
    | nil => rfl
    | cons a t =>
      rw [List.append_nil]
      show (if (a :: t).isEmpty = true then [] else [(a :: t).reverse]) =
        if (a :: t).reverse.isEmpty = true then [] else [(a :: t).reverse]
      rw [if_neg (by simp : ¬((a :: t).isEmpty = true)),
        if_neg (by simp : ¬((a :: t).reverse.isEmpty = true))]
  | cons d rest ih =>
    intro cur h
    have hd : isLineBreak d = false := h d (List.mem_cons_self _ _)
    have hdn : ¬(false = true ∧ d = '\n') := by
      rintro ⟨hf, _⟩
      exact absurd hf (by simp)
    have hdr : d ≠ '\r' := by
      intro hh
      rw [hh] at hd
      exact absurd hd (by decide)
    rw [pySplitlinesAux_cons, if_neg hdn, if_neg hdr, if_neg (by simp [hd])]
    rw [ih (d :: cur) (fun c hc => h c (List.mem_cons_of_mem _ hc))]
    have heq : (d :: cur).reverse ++ rest = cur.reverse ++ d :: rest := by
      rw [List.reverse_cons, List.append_assoc]
      rfl
    rw [heq]

theorem pySplitlines_single (s : List Char) (h : ∀ c ∈ s, isLineBreak c = false)
    (hne : s ≠ []) : pySplitlines s = [s] := by
  unfold pySplitlines
  rw [pySplitlinesAux_single s [] h]
  simp [List.isEmpty_iff, hne]

/-- C4 (amended): `strip_structural_markup` is idempotent on every input whose
single application does not itself begin with a recognized leading marker; in
general stacked leading markers need one pass each (see the counterexample),
so unconditional idempotence fails. -/
theorem strip_bullet_points_idem_of_no_leading_marker (s : List Char)
    (h : (matchAtStart (strip_bullet_points s)).isSome = false) :
    strip_bullet_points (strip_bullet_points s) = strip_bullet_points s := by
  have hflat : wsFlat (strip_bullet_points s) := by
    unfold strip_bullet_points
    exact wsFlat_pyStrip_collapse _
  have hchain := chain_noDP_strip_bullet_points s
  obtain ⟨hmem, hwchain, hhead, hlast⟩ := hflat
  by_cases hne : strip_bullet_points s = []
  · rw [hne]
    rfl
  · have hnb : ∀ c ∈ strip_bullet_points s, isLineBreak c = false := by
      intro c hc
      by_contra hb
      have hb' : isLineBreak c = true := by simpa using hb
      have hws := isPySpace_of_isLineBreak hb'
      have hsp := hmem c hc hws
      rw [hsp] at hb'
      exact absurd hb' (by decide)
    have hsplit : pySplitlines (strip_bullet_points s) = [strip_bullet_points s] :=
      pySplitlines_single _ hnb hne
    have hstr : pyStrip (strip_bullet_points s) = strip_bullet_points s :=
      pyStrip_fix _ hhead hlast
    have hms : matchAtStart (strip_bullet_points s) = none := by
      cases hmsc : matchAtStart (strip_bullet_points s) with
      | none => rfl
      | some r =>
        rw [hmsc] at h
        exact absurd h (by simp)
    have hbs : bulletSub (strip_bullet_points s) = strip_bullet_points s := by
      unfold bulletSub
      rw [hms]
      have h2 := bsInner_id (strip_bullet_points s) [] (by simp) (by simpa using hchain)
      simpa using h2
    conv_lhs => rw [strip_bullet_points]
    rw [hsplit, List.map_cons, List.map_nil, hstr, hbs]
    have hfil : ([strip_bullet_points s].filter (fun nl => !nl.isEmpty)) =
        [strip_bullet_points s] := by
      rw [List.filter_cons, if_pos (by simpa [List.isEmpty_iff] using hne)]
      rfl
    rw [hfil]
    rw [show joinWithSpace [strip_bullet_points s] = strip_bullet_points s from rfl]
    have hcol : collapseWs (strip_bullet_points s) = strip_bullet_points s := by
      unfold collapseWs
      exact collapseWsAux_fix _ false hmem hwchain (fun hf => absurd hf (by simp))
    rw [hcol, hstr]

/-- Witness for C4 (amended) at the two-line input `"* hello\nworld"`, whose
single pass yields `"hello world"` with no leading marker. -/
theorem strip_bullet_points_idem_witness :
    (matchAtStart (strip_bullet_points "* hello\nworld".data)).isSome = false ∧
    strip_bullet_points (strip_bullet_points "* hello\nworld".data) =
      strip_bullet_points "* hello\nworld".data :=
  ⟨by decide, strip_bullet_points_idem_of_no_leading_marker _ (by decide)⟩

/-- Witness for C2: the call-count bound applied at a concrete oracle and
budget. -/
theorem summarize_completion_call_count_witness :
    (summarize_text_with_llama (fun _ => "A plain sentence.".data) 40).calls ≤ 2 :=
  summarize_completion_call_count.1 (fun _ => "A plain sentence.".data) 40

/-- Witness for C5 (amended) at the input `"1) 2) a"`. -/
theorem strip_bullet_points_no_leading_enum_paren_witness :
    matchDigitsThen ')' (strip_bullet_points "1) 2) a".data) = none :=
  strip_bullet_points_no_leading_enum_paren "1) 2) a".data

/-- Witness for C9 at a concrete oracle whose output contains newlines and
repeated whitespace, and budget `100`. -/
theorem summarize_whitespace_invariants_witness :
    '\n' ∉ (summarize_text_with_llama (fun _ => "a\n  b\t\tc ".data) 100).summary ∧
    List.Chain' noTwoWsRel
      (summarize_text_with_llama (fun _ => "a\n  b\t\tc ".data) 100).summary :=
  ⟨(summarize_whitespace_invariants (fun _ => "a\n  b\t\tc ".data) 100).1,
   (summarize_whitespace_invariants (fun _ => "a\n  b\t\tc ".data) 100).2.1⟩
